import Mathlib

/-! Verification of the content-synchronization pipeline of the hashy-slack-app
repository against its natural-language specification.

The development shallowly embeds the relevant source files:

* `src/indexer/app.py`  — the Indexer worker: per-record upsert path
  (sentence computation, ledger lookup/update, deterministic vector ids,
  batched vector upserts, shrink deletion of orphaned trailing ids) and the
  helper `chunks`.
* `src/scheduler/app.py` — the Scheduler: per-integration polling
  (`process`), the change-detection filters `get_notion_documents_to_upsert`
  and `get_google_documents_to_upsert`, the accumulation loop of `handler`
  with its `UPSERT_LIMIT` break, and the queue sends.
* the DELETE-command consumer described in the specification (section 4.3,
  step 1), whose producer is in `src/backend/app/app/main.py` but whose
  consumer is not part of the sources; it is modelled from the specification
  in namespace `SpecModel`.

External I/O (HTTP calls to Slack/Notion/Google, the embedding model, regex
splitting of raw text) is passed in as function parameters or as data, as
the specification itself treats those as external collaborators.  Machine
integers do not occur on the verified paths; Python integers are unbounded
and timestamps are totally ordered, so `Nat` is used for both.
-/

namespace Hashy

/-! Section: Decimal rendering

Python renders `f"{i}"` for a nonnegative integer as its decimal digit
string, most significant digit first.  `natToString` is that rendering. -/

/-- Decimal digit characters of `n`, most significant first.  The first
argument is recursion fuel; any fuel of at least `n` computes the digits. -/
def toDecimal : Nat → Nat → List Char
  | _, 0 => []
  | 0, _ + 1 => []
  | fuel + 1, n + 1 => toDecimal fuel ((n + 1) / 10) ++ [Nat.digitChar ((n + 1) % 10)]

/-- Decimal rendering of a natural number, as Python `str(n)` produces it. -/
def natToString (n : Nat) : String :=
  if n = 0 then "0" else String.mk (toDecimal n n)

/-! Section: The chunks helper

`src/indexer/app.py` lines 309-315 and `src/scheduler/app.py` lines 30-36
define the same generator:

    def chunks(iterable, batch_size=100):
        it = iter(iterable)
        chunk = tuple(itertools.islice(it, batch_size))
        while chunk:
            yield chunk
            chunk = tuple(itertools.islice(it, batch_size))

Each yielded tuple holds the next `batch_size` elements; the loop stops when
the tuple is empty (which also happens immediately when `batch_size = 0`,
since `islice(it, 0)` is empty). -/

/-- Fuel-bounded core of the `chunks` helper; any fuel of at least the
list length computes all batches, and each step consumes at least one
element when the batch size is positive. -/
def chunksAux (batch_size : Nat) : Nat → List α → List (List α)
  | _, [] => []
  | 0, _ :: _ => []
  | fuel + 1, x :: xs =>
    if batch_size = 0 then []
    else (x :: xs).take batch_size :: chunksAux batch_size fuel ((x :: xs).drop batch_size)

/-- The `chunks` helper: split a list into consecutive batches of at most
`batch_size` elements; with `batch_size = 0` the Python generator yields
nothing at all. -/
def chunks (batch_size : Nat) (xs : List α) : List (List α) :=
  chunksAux batch_size xs.length xs

/-! Section: The vector index

Pinecone stores one record per id; `index.upsert` overwrites the record at
an existing id and inserts otherwise, `index.delete(ids=...)` removes the
listed ids.  The index is embedded as an association list from id to
record. -/

/-- Metadata stored with each vector by the Indexer upsert path
(`src/indexer/app.py` lines 524-534). -/
structure VectorMeta where
  title : String
  team : String
  url : String
  text : String
  type : Option String
  deriving Repr, DecidableEq

/-- One record of the vector index: the embedding (produced by the external
embedding model, abstracted to an integer code) plus metadata. -/
structure VectorRecord where
  embedding : Int
  meta : VectorMeta
  deriving Repr, DecidableEq

/-- The vector index: an association list from vector id to record. -/
abbrev VIndex := List (String × VectorRecord)

/-- Pinecone upsert semantics: overwrite the record at this id if present,
else insert the new record. -/
def upsertVector : VIndex → String × VectorRecord → VIndex
  | [], kv => [kv]
  | e :: rest, kv => if e.1 = kv.1 then kv :: rest else e :: upsertVector rest kv

/-- Pinecone delete-by-ids semantics: drop every record whose id occurs in
the given list. -/
def deleteVectors (ix : VIndex) (ids : List String) : VIndex :=
  ix.filter fun e => !(ids.contains e.1)

/-- The ids currently present in the index. -/
def vecIds (ix : VIndex) : List String := ix.map Prod.fst

/-- Look up the record stored at an id. -/
def lookupV (ix : VIndex) (k : String) : Option (String × VectorRecord) :=
  ix.find? fun e => e.1 == k

/-- A blank record used to populate concrete index states in witnesses. -/
def blankRecord : VectorRecord :=
  { embedding := 0, meta := { title := "", team := "", url := "", text := "", type := none } }

/-- A concrete index holding records at ids `f 0, ..., f (n-1)`. -/
def idRange (f : Nat → String) (n : Nat) : VIndex :=
  (List.range n).map fun i => (f i, blankRecord)

namespace Indexer

/-! Section: Indexer data model

`src/indexer/app.py` lines 55-70 declare the `document` table (the content
ledger).  The `embeddings` pickle column is never read or written by the
handler and is omitted; `num_vectors` is nullable in SQL and the handler
coerces a missing value to 0 (`doc.num_vectors if doc and doc.num_vectors
else 0`), so it is embedded as a `Nat`. -/

/-- A row of the `document` table (the content ledger of the old pipeline).
The `user` column is left NULL by the insert in the handler, hence
`Option String`. -/
structure Document where
  id : Nat
  team : String
  user : Option String
  users : List String
  file_id : String
  name : String
  type : Option String
  url : String
  num_vectors : Nat
  deriving Repr, DecidableEq

/-- The payload of an upsert queue message (`src/indexer/app.py` lines
431-438) together with the text produced for it by the type-dispatched
extraction calls of lines 443-488 (external HTTP I/O, carried as data). -/
structure UpsertPayload where
  file_name : String
  url : String
  team : String
  user : String
  file_id : String
  filetype : String
  mimetype : Option String
  text : String
  deriving Repr, DecidableEq

/-- The state mutated by the upsert path: the `document` table and the
vector index. -/
structure IndexerState where
  docs : List Document
  index : VIndex
  deriving Repr, DecidableEq

/-- The deterministic vector id `f"{team}-{file_id}-{i}"` of
`src/indexer/app.py` lines 525 and 539. -/
def vectorId (team file_id : String) (i : Nat) : String :=
  team ++ "-" ++ file_id ++ "-" ++ natToString i

/-- Sentence computation of `src/indexer/app.py` lines 491-495:

    sentences = [file_name]
    if filetype == spreadsheet and len(text) > 0:
        sentences = re.split(REGEX_EXP, text)
    elif len(text) > 0:
        sentences.extend(re.split(REGEX_EXP, text))

The regex split is a pure function of the text and is passed in as
`split`. -/
def computeSentences (split : String → List String) (p : UpsertPayload) : List String :=
  if p.filetype = "drive#file|application/vnd.google-apps.spreadsheet" ∧ 0 < p.text.length then
    split p.text
  else if 0 < p.text.length then
    p.file_name :: split p.text
  else
    [p.file_name]

/-- `extract_snippet` of `src/indexer/app.py` lines 318-326.  Python indexes
`sentences[idx]` only at in-range positions at the call site; the embedding
totalizes the access with a default. -/
def extract_snippet (sentences : List String) (filetype : String) (idx : Nat) : String :=
  let snippet :=
    if sentences.length = 1 then sentences.getD idx ""
    else if filetype = "drive#file|application/vnd.google-apps.spreadsheet" then
      sentences.getD idx ""
    else String.intercalate " " ((sentences.drop idx).take 2)
  (String.intercalate " " (snippet.splitOn "\n")).trim

/-- Python `filetype or mimetype` (lines 505 and 532): the filetype when it
is a nonempty string, otherwise the mimetype. -/
def payloadType (p : UpsertPayload) : Option String :=
  if p.filetype = "" then p.mimetype else some p.filetype

/-- The Python update materializes `list(set(doc.users) + {user})`; the set
is represented by a duplicate-free list that keeps the stored order and
appends the new user at the end when absent. -/
def addUser (us : List String) (u : String) : List String :=
  if u ∈ us then us else us ++ [u]

/-- Ledger lookup `db.query(Document).filter(Document.file_id == file_id)
.first()` (line 508). -/
def lookupDoc (docs : List Document) (fid : String) : Option Document :=
  docs.find? fun d => d.file_id == fid

/-- Ledger update `db.query(Document).filter_by(id=doc.id).update({users,
num_vectors})` (line 517): set the two columns on every row with the given
primary key. -/
def setDocFields (docs : List Document) (i : Nat) (users : List String) (nv : Nat) :
    List Document :=
  docs.map fun d => if d.id = i then { d with users := users, num_vectors := nv } else d

/-- A fresh autoincrement primary key for an insert. -/
def freshDocId (docs : List Document) : Nat :=
  1 + (docs.map Document.id).foldr max 0

/-- The row inserted on first indexing (`fields` dict of lines 498-506; the
`user` column is not in the dict and stays NULL). -/
def newDocument (docs : List Document) (p : UpsertPayload) (nv : Nat) : Document :=
  { id := freshDocId docs, team := p.team, user := none, users := [p.user],
    file_id := p.file_id, name := p.file_name, type := payloadType p,
    url := p.url, num_vectors := nv }

/-- The `(id, embedding, metadata)` triples built by `upsert_data_generator`
(lines 524-534), with the embedding of sentence `i` computed by the external
model `encode`. -/
def upsertData (encode : String → Int) (p : UpsertPayload) (sentences : List String) :
    List (String × VectorRecord) :=
  (List.range sentences.length).map fun i =>
    (vectorId p.team p.file_id i,
     { embedding := (sentences.map encode).getD i 0,
       meta := { title := p.file_name, team := p.team, url := p.url,
                 text := extract_snippet sentences p.filetype i,
                 type := payloadType p } })

/-- The per-record upsert path of the Indexer handler (`src/indexer/app.py`
lines 491-548): compute sentences and embeddings, read the previous ledger
row, write the ledger (update with unioned users and the new count, or
insert), upsert all chunk vectors in batches of 100, and delete the
orphaned trailing ids when the new count shrank. -/
def upsertPath (encode : String → Int) (split : String → List String)
    (p : UpsertPayload) (s : IndexerState) : IndexerState :=
  let sentences := computeSentences split p
  let doc? := lookupDoc s.docs p.file_id
  let prev := match doc? with
    | some d => d.num_vectors
    | none => 0
  let docs1 := match doc? with
    | some d => setDocFields s.docs d.id (addUser d.users p.user) sentences.length
    | none => s.docs ++ [newDocument s.docs p sentences.length]
  let ix1 := (chunks 100 (upsertData encode p sentences)).foldl
    (fun ix batch => batch.foldl upsertVector ix) s.index
  let ix2 :=
    if sentences.length < prev then
      (chunks 100 ((List.range' sentences.length (prev - sentences.length)).map
          (vectorId p.team p.file_id))).foldl
        (fun ix batch => deleteVectors ix batch) ix1
    else ix1
  { docs := docs1, index := ix2 }

/-- Events emitted by the upsert path, in program order. -/
inductive IndexerEvent where
  | ledgerWrite (file_id : String) (num_vectors : Nat)
  | vectorUpsert (id : String)
  | vectorDelete (id : String)
  deriving Repr, DecidableEq

/-- Whether an event is the ledger write. -/
def isLedger : IndexerEvent → Bool
  | IndexerEvent.ledgerWrite _ _ => true
  | _ => false

/-- Whether an event mutates the vector index. -/
def isVecOp : IndexerEvent → Bool
  | IndexerEvent.vectorUpsert _ => true
  | IndexerEvent.vectorDelete _ => true
  | _ => false

/-- The event trace of the upsert path, in the order the source performs the
side effects: the ledger commit (lines 510-523) happens first, then the
batched vector upserts (lines 535-536), then the shrink deletions (lines
538-542). -/
def upsertPathEvents (split : String → List String) (p : UpsertPayload)
    (s : IndexerState) : List IndexerEvent :=
  let sentences := computeSentences split p
  let prev := match lookupDoc s.docs p.file_id with
    | some d => d.num_vectors
    | none => 0
  IndexerEvent.ledgerWrite p.file_id sentences.length ::
    ((List.range sentences.length).map (fun i =>
        IndexerEvent.vectorUpsert (vectorId p.team p.file_id i)) ++
      (if sentences.length < prev then
        (List.range' sentences.length (prev - sentences.length)).map fun i =>
          IndexerEvent.vectorDelete (vectorId p.team p.file_id i)
      else []))

/-- The property claimed for the trace: the ledger write is persisted last,
after every vector mutation. -/
def ledgerPersistedLast (tr : List IndexerEvent) : Prop :=
  tr.Pairwise fun a b => ¬(isLedger a = true ∧ isVecOp b = true)

/-- The trace property is decidable, so concrete traces can be checked. -/
instance (tr : List IndexerEvent) : Decidable (ledgerPersistedLast tr) := by
  unfold ledgerPersistedLast
  haveI : DecidableRel fun a b : IndexerEvent =>
      ¬(isLedger a = true ∧ isVecOp b = true) := fun a b =>
    inferInstanceAs (Decidable ¬(isLedger a = true ∧ isVecOp b = true))
  infer_instance

/-! Concrete fixtures for witnesses and counterexamples. -/

/-- A concrete stand-in for the regex sentence split. -/
def split0 : String → List String := fun _ => ["s1.", "s2."]

/-- A concrete stand-in for the embedding model. -/
def encode0 : String → Int := fun s => Int.ofNat s.length

/-- A concrete upsert payload. -/
def payload0 : UpsertPayload :=
  { file_name := "Doc", url := "u", team := "T", user := "U", file_id := "F",
    filetype := "notion", mimetype := none, text := "body" }

/-- A concrete ledger row recording five previously indexed chunks. -/
def doc0 : Document :=
  { id := 1, team := "T", user := some "U", users := ["U0"], file_id := "F",
    name := "Doc", type := some "notion", url := "u", num_vectors := 5 }

/-- A concrete state: `doc0` in the ledger and its five vectors in the
index. -/
def state0 : IndexerState :=
  { docs := [doc0], index := idRange (vectorId "T" "F") 5 }

end Indexer

namespace Scheduler

/-! Section: Scheduler data model

`src/scheduler/crud.py` declares the same `document` table; the change
detection of `src/scheduler/app.py` reads only `users`, `time_created` and
`time_updated` of the row found by `file_id`.  Timestamps are parsed from
the ISO strings of the external responses by an order-preserving injective
conversion (`pytz.utc.localize(datetime.strptime(...))`); the embedding
carries the parsed value as a `Nat`. -/

/-- The ledger fields read by the Scheduler change detection. -/
structure SchedDoc where
  file_id : String
  users : List String
  time_created : Nat
  time_updated : Option Nat
  deriving Repr, DecidableEq

/-- One result of the Notion search API (`results` array entries used by
`get_notion_documents_to_upsert`). -/
structure NotionPage where
  id : String
  url : String
  last_edited_time : Nat
  archived : Bool
  deriving Repr, DecidableEq

/-- One file of the Google Drive list API (`files` array entries used by
`get_google_documents_to_upsert`). -/
structure GFile where
  id : String
  name : String
  mimeType : String
  modifiedTime : Nat
  deriving Repr, DecidableEq

/-- The upsert message body built by the Scheduler (the `doc` dicts of
`src/scheduler/app.py` lines 144-151 and 179-186). -/
structure UpsertDoc where
  team : String
  user : String
  url : String
  filetype : String
  file_name : String
  file_id : String
  deriving Repr, DecidableEq

/-- Python `document.time_updated or document.time_created` (lines 128-129
and 169-170); a datetime object is always truthy, so this is just the
fallback on NULL. -/
def lastUpdatedInDb (d : SchedDoc) : Nat :=
  d.time_updated.getD d.time_created

/-- File-name computation of lines 139-143: take the last `/`-segment of
the url, split it on `-`; a single part means an untitled page, otherwise
join all but the last part with spaces. -/
def notionFileName (url : String) : String :=
  let parts := ((url.splitOn "/").getLastD "").splitOn "-"
  if parts.length = 1 then "Untitled" else String.intercalate " " parts.dropLast

/-- `get_notion_documents_to_upsert` of `src/scheduler/app.py` lines
115-153: for each search result, look up the ledger row by id and skip the
result when the row exists, its recorded timestamp is strictly newer than
the last-edited time, and the requesting user is already in its access
list; also skip archived pages; otherwise produce the upsert message. -/
def get_notion_documents_to_upsert (db : List SchedDoc) (team user : String)
    (results : List NotionPage) : List UpsertDoc :=
  results.filterMap fun r =>
    let document := db.find? fun d => d.file_id == r.id
    let skip : Bool := match document with
      | some d => decide (r.last_edited_time < lastUpdatedInDb d) && d.users.contains user
      | none => false
    if skip then none
    else if r.archived then none
    else some { team := team, user := user, url := r.url, filetype := "notion",
                file_name := notionFileName r.url, file_id := r.id }

/-- `get_google_documents_to_upsert` of `src/scheduler/app.py` lines
156-188: the same skip rule, without an archived filter, with the Drive
url and filetype. -/
def get_google_documents_to_upsert (db : List SchedDoc) (team user : String)
    (files : List GFile) : List UpsertDoc :=
  files.filterMap fun f =>
    let document := db.find? fun d => d.file_id == f.id
    let skip : Bool := match document with
      | some d => decide (f.modifiedTime < lastUpdatedInDb d) && d.users.contains user
      | none => false
    if skip then none
    else some { team := team, user := user,
                url := "https://drive.google.com/file/d/" ++ f.id,
                filetype := "drive#file|" ++ f.mimeType,
                file_name := f.name, file_id := f.id }

/-- The skip condition the Google filter actually implements, named for the
amended statement of the skip rule. -/
def googleSkip (db : List SchedDoc) (user : String) (f : GFile) : Bool :=
  match db.find? (fun d => d.file_id == f.id) with
  | some d => decide (f.modifiedTime < lastUpdatedInDb d) && d.users.contains user
  | none => false

/-- The message the Google filter produces for a non-skipped file. -/
def googleUpsertDoc (team user : String) (f : GFile) : UpsertDoc :=
  { team := team, user := user, url := "https://drive.google.com/file/d/" ++ f.id,
    filetype := "drive#file|" ++ f.mimeType, file_name := f.name, file_id := f.id }

/-- The skip condition the Notion filter actually implements. -/
def notionSkip (db : List SchedDoc) (user : String) (r : NotionPage) : Bool :=
  match db.find? (fun d => d.file_id == r.id) with
  | some d => decide (r.last_edited_time < lastUpdatedInDb d) && d.users.contains user
  | none => false

/-- The message the Notion filter produces for a non-skipped page. -/
def notionUpsertDoc (team user : String) (r : NotionPage) : UpsertDoc :=
  { team := team, user := user, url := r.url, filetype := "notion",
    file_name := notionFileName r.url, file_id := r.id }

/-- The response of the external Reader call made by `process` (the Notion
search or the Drive file list), with the next cursor it reports. -/
inductive ReaderResponse where
  | notionR (next_cursor : Option String) (results : List NotionPage)
  | googleR (nextPageToken : Option String) (files : List GFile)
  deriving Repr, DecidableEq

/-- Decidable equality of Reader outcomes, for concrete evaluation. -/
instance : DecidableEq (Except String ReaderResponse) := fun x y =>
  match x, y with
  | Except.error a, Except.error b =>
    if h : a = b then Decidable.isTrue (by rw [h])
    else Decidable.isFalse (by intro hc; cases hc; exact h rfl)
  | Except.ok a, Except.ok b =>
    if h : a = b then Decidable.isTrue (by rw [h])
    else Decidable.isFalse (by intro hc; cases hc; exact h rfl)
  | Except.error _, Except.ok _ => Decidable.isFalse (by intro hc; cases hc)
  | Except.ok _, Except.error _ => Decidable.isFalse (by intro hc; cases hc)

/-- One integration token of the polling loop, carrying the outcome of its
external Reader call: either the response or the exception the HTTP client
raised. -/
structure SchedToken where
  id : Nat
  user_id : String
  team : String
  response : Except String ReaderResponse
  deriving Repr, DecidableEq

/-- Observable events of a scheduling run, in program order: the Reader
read, the cursor persistence (`crud.update_last_cursor_*`), and each
`queue.send_messages` batch. -/
inductive SchedEvent where
  | readDescriptors (tokenId : Nat)
  | advanceCursor (tokenId : Nat) (cursor : Option String)
  | enqueueBatch (batch : List UpsertDoc)
  deriving Repr, DecidableEq

/-- Whether an event is a cursor advance. -/
def isAdv : SchedEvent → Bool
  | SchedEvent.advanceCursor _ _ => true
  | _ => false

/-- Whether an event is a queue send. -/
def isEnq : SchedEvent → Bool
  | SchedEvent.enqueueBatch _ => true
  | _ => false

/-- `UPSERT_LIMIT` of `src/scheduler/app.py` line 27. -/
def UPSERT_LIMIT : Nat := 1000

/-- `process` of `src/scheduler/app.py` lines 191-210 for one token: the
Reader call happens first (and its exception propagates), then the cursor
is persisted, then the documents to upsert are computed from the response
and the ledger. -/
def processToken (db : List SchedDoc) (t : SchedToken) :
    Except String (List SchedEvent × List UpsertDoc) :=
  match t.response with
  | Except.error e => Except.error e
  | Except.ok (ReaderResponse.notionR cur results) =>
      Except.ok ([SchedEvent.readDescriptors t.id, SchedEvent.advanceCursor t.id cur],
                 get_notion_documents_to_upsert db t.team t.user_id results)
  | Except.ok (ReaderResponse.googleR cur files) =>
      Except.ok ([SchedEvent.readDescriptors t.id, SchedEvent.advanceCursor t.id cur],
                 get_google_documents_to_upsert db t.team t.user_id files)

/-- The outcome of a scheduling run: its event trace, the messages sent to
the queue, and the exception that aborted it, if any. -/
structure SchedRun where
  events : List SchedEvent
  enqueued : List UpsertDoc
  err : Option String
  deriving Repr, DecidableEq

/-- The sends after the polling loop (`src/scheduler/app.py` lines
250-251): the accumulated upserts go out in batches of 10. -/
def finishRun (upserts : List UpsertDoc) : SchedRun :=
  { events := (chunks 10 upserts).map SchedEvent.enqueueBatch,
    enqueued := upserts, err := none }

/-- The polling loop of `handler` (lines 237-251): stop at a token once the
accumulated upserts reach `UPSERT_LIMIT`; a Reader exception propagates out
of the run (events of earlier tokens persist, nothing is sent); otherwise
record the read and cursor-advance effects and accumulate the documents. -/
def schedLoop (db : List SchedDoc) : List UpsertDoc → List SchedToken → SchedRun
  | upserts, [] => finishRun upserts
  | upserts, t :: rest =>
    if UPSERT_LIMIT ≤ upserts.length then finishRun upserts
    else
      match processToken db t with
      | Except.error e => { events := [], enqueued := [], err := some e }
      | Except.ok (evs, docs) =>
          let r := schedLoop db (upserts ++ docs) rest
          { events := evs ++ r.events, enqueued := r.enqueued, err := r.err }

/-- The non-Slack branch of the Scheduler `handler` (lines 232-251), with
the token list (from `get_tokens`) and the ledger as inputs. -/
def handler (db : List SchedDoc) (tokens : List SchedToken) : SchedRun :=
  schedLoop db [] tokens

/-- The documents one token contributes when polled (empty when its Reader
call fails). -/
def tokenDocs (db : List SchedDoc) (t : SchedToken) : List UpsertDoc :=
  match processToken db t with
  | Except.error _ => []
  | Except.ok (_, docs) => docs

/-- The largest single-token batch among the given tokens. -/
def maxTokenBatch (db : List SchedDoc) (tokens : List SchedToken) : Nat :=
  (tokens.map fun t => (tokenDocs db t).length).foldr max 0

/-- The property claimed for the trace: a cursor advance happens only after
the read descriptors are durably enqueued, never before. -/
def cursorAdvanceAfterEnqueue (tr : List SchedEvent) : Prop :=
  tr.Pairwise fun a b => ¬(isAdv a = true ∧ isEnq b = true)

/-- The trace property is decidable, so concrete traces can be checked. -/
instance (tr : List SchedEvent) : Decidable (cursorAdvanceAfterEnqueue tr) := by
  unfold cursorAdvanceAfterEnqueue
  haveI : DecidableRel fun a b : SchedEvent =>
      ¬(isAdv a = true ∧ isEnq b = true) := fun a b =>
    inferInstanceAs (Decidable ¬(isAdv a = true ∧ isEnq b = true))
  infer_instance

/-! Concrete fixtures for witnesses and counterexamples. -/

/-- A Google file whose modification time equals the recorded ledger
timestamp. -/
def gfile0 : GFile :=
  { id := "file-1", name := "Doc", mimeType := "application/vnd.google-apps.document",
    modifiedTime := 5 }

/-- The ledger row for `gfile0`, already granting access to user U1 and
recording timestamp 5. -/
def sdoc0 : SchedDoc :=
  { file_id := "file-1", users := ["U1"], time_created := 3, time_updated := some 5 }

/-- A token whose Reader call succeeds with `gfile0`. -/
def tokOk : SchedToken :=
  { id := 2, user_id := "U1", team := "T1",
    response := Except.ok (ReaderResponse.googleR none [gfile0]) }

/-- A token whose Reader call raises. -/
def tokErr : SchedToken :=
  { id := 1, user_id := "U1", team := "T1", response := Except.error "boom" }

/-- A list of 1001 Google files returned by a single Reader call. -/
def bigFiles : List GFile :=
  (List.range 1001).map fun i =>
    { id := natToString i, name := "f", mimeType := "text/plain", modifiedTime := 0 }

/-- A token whose single poll yields 1001 changed files. -/
def tokBig : SchedToken :=
  { id := 1, user_id := "U1", team := "T1",
    response := Except.ok (ReaderResponse.googleR none bigFiles) }

end Scheduler

namespace SpecModel

/-! Section: The DELETE command consumer

Modelled from the spec: the consumer of `{event_type: "DELETE", source_id,
integration_id}` queue messages (specification section 4.3 step 1 and
section 6) is not among the sources; only its producer
(`src/backend/app/app/main.py` lines 831-838) and the ledger CRUD it is
described against (`src/core/core/db/crud.py`: `get_content_store`,
`delete_content_stores`) are.  Following the specification: given
`source_id` and the recorded `num_vectors`, delete vector ids
`source_id-0..num_vectors-1` from the index, then delete the Ledger row;
with no Ledger row there is no recorded count and nothing to do. -/

/-- A row of the `contentstore` table (`src/core/core/db/models.py` lines
25-37), restricted to the fields the delete command touches. -/
structure ContentStoreRow where
  source_id : String
  team_id : String
  user_ids : List String
  num_vectors : Nat
  is_boosted : Bool
  deriving Repr, DecidableEq

/-- The state the delete command acts on: the content ledger and the vector
index. -/
structure SpecState where
  rows : List ContentStoreRow
  index : VIndex
  deriving Repr, DecidableEq

/-- Modelled from the spec: the deterministic vector id
`f"{source_id}-{chunk_index}"` the delete command removes (specification
sections 3 and 4.3). -/
def specVectorId (source_id : String) (i : Nat) : String :=
  source_id ++ "-" ++ natToString i

/-- Modelled from the spec: processing one DELETE command.  Look up the
Ledger row by `source_id`; if present, delete vector ids
`source_id-0..num_vectors-1` from the index and delete the row (the CRUD
delete removes every row with that `source_id`); if absent, no-op. -/
def deleteCommand (s : SpecState) (source_id : String) : SpecState :=
  match s.rows.find? (fun r => r.source_id == source_id) with
  | none => s
  | some r =>
      { rows := s.rows.filter fun q => !(q.source_id == source_id),
        index := deleteVectors s.index
          ((List.range r.num_vectors).map (specVectorId source_id)) }

/-- A concrete ledger row recording five indexed chunks for witnesses. -/
def row0 : ContentStoreRow :=
  { source_id := "doc-42", team_id := "T", user_ids := ["U"], num_vectors := 5,
    is_boosted := false }

/-- A concrete state holding `row0` and its five vectors. -/
def specState0 : SpecState :=
  { rows := [row0], index := idRange (specVectorId "doc-42") 5 }

end SpecModel

end Hashy

namespace Hashy

/-! Theorems

First the generic helper lemmas (decimal rendering, the chunks helper, the
association-list vector index), then one theorem per claim with its witness
or counterexample. -/

/-! Section: Decimal rendering is injective -/

/-- Decimal digit characters distinguish digits. -/
theorem digitChar_inj_lt : ∀ a, a < 10 → ∀ b, b < 10 →
    Nat.digitChar a = Nat.digitChar b → a = b := by decide

/-- Mapping `Nat.digitChar` over digit lists is injective. -/
theorem map_digitChar_inj : ∀ xs ys : List Nat, (∀ x ∈ xs, x < 10) →
    (∀ y ∈ ys, y < 10) → xs.map Nat.digitChar = ys.map Nat.digitChar → xs = ys := by
  intro xs
  induction xs with
  | nil =>
    intro ys _ _ h
    cases ys with
    | nil => rfl
    | cons y ys => simp at h
  | cons x xs ih =>
    intro ys hx hy h
    cases ys with
    | nil => simp at h
    | cons y ys =>
      simp only [List.map_cons, List.cons.injEq] at h
      have hxy := digitChar_inj_lt x (hx x (by simp)) y (hy y (by simp)) h.1
      subst hxy
      rw [ih ys (fun a ha => hx a (by simp [ha])) (fun a ha => hy a (by simp [ha])) h.2]

/-- Auxiliary: a nonzero number cannot render to the digit list of zero. -/
theorem digits_ne_zero_list {n : Nat} (hn : n ≠ 0) : Nat.digits 10 n ≠ [0] := by
  intro h0
  have hod := Nat.ofDigits_digits 10 n
  rw [h0] at hod
  simp [Nat.ofDigits] at hod
  exact hn hod.symm

/-- The fuel-based digit computation agrees with the reversed digit list of
`Nat.digits`. -/
theorem toDecimal_eq_digits : ∀ n fuel, n ≤ fuel →
    toDecimal fuel n = ((Nat.digits 10 n).map Nat.digitChar).reverse := by
  intro n
  induction n using Nat.strong_induction_on with
  | _ n ih =>
    match n with
    | 0 => intro fuel _; simp [toDecimal]
    | n + 1 =>
      intro fuel hfuel
      match fuel with
      | 0 => omega
      | fuel + 1 =>
        rw [toDecimal]
        have hd : Nat.digits 10 (n + 1) = (n + 1) % 10 :: Nat.digits 10 ((n + 1) / 10) :=
          Nat.digits_def' (by norm_num) (Nat.succ_pos n)
        rw [hd, List.map_cons, List.reverse_cons]
        have hlt : (n + 1) / 10 < n + 1 := Nat.div_lt_self (Nat.succ_pos n) (by norm_num)
        rw [ih ((n + 1) / 10) hlt fuel (by omega)]

/-- The executable rendering written through `Nat.digits`. -/
theorem natToString_eq (n : Nat) :
    natToString n =
      if n = 0 then "0" else String.mk (((Nat.digits 10 n).map Nat.digitChar).reverse) := by
  unfold natToString
  by_cases h : n = 0
  · simp [h]
  · rw [if_neg h, if_neg h, toDecimal_eq_digits n n le_rfl]

/-- The decimal rendering is injective: distinct numbers have distinct
decimal strings. -/
theorem natToString_injective : Function.Injective natToString := by
  intro m n h
  rw [natToString_eq, natToString_eq] at h
  by_cases hm : m = 0 <;> by_cases hn : n = 0
  · rw [hm, hn]
  · exfalso
    rw [if_pos hm, if_neg hn] at h
    have hd := congrArg String.data h
    have h0 : (String.mk (((Nat.digits 10 n).map Nat.digitChar).reverse)).data =
        ((Nat.digits 10 n).map Nat.digitChar).reverse := rfl
    rw [h0] at hd
    have hz : ("0" : String).data = ['0'] := rfl
    rw [hz] at hd
    have hrev : (Nat.digits 10 n).map Nat.digitChar = ['0'] := by
      rw [← List.reverse_reverse ((Nat.digits 10 n).map Nat.digitChar), ← hd]
      rfl
    have hzz : (['0'] : List Char) = [0].map Nat.digitChar := rfl
    rw [hzz] at hrev
    have := map_digitChar_inj (Nat.digits 10 n) [0]
      (fun x hx => Nat.digits_lt_base (by norm_num) hx) (by intro y hy; simp at hy; omega) hrev
    exact digits_ne_zero_list hn this
  · exfalso
    rw [if_neg hm, if_pos hn] at h
    have hd := congrArg String.data h.symm
    have h0 : (String.mk (((Nat.digits 10 m).map Nat.digitChar).reverse)).data =
        ((Nat.digits 10 m).map Nat.digitChar).reverse := rfl
    rw [h0] at hd
    have hz : ("0" : String).data = ['0'] := rfl
    rw [hz] at hd
    have hrev : (Nat.digits 10 m).map Nat.digitChar = ['0'] := by
      rw [← List.reverse_reverse ((Nat.digits 10 m).map Nat.digitChar), ← hd]
      rfl
    have hzz : (['0'] : List Char) = [0].map Nat.digitChar := rfl
    rw [hzz] at hrev
    have := map_digitChar_inj (Nat.digits 10 m) [0]
      (fun x hx => Nat.digits_lt_base (by norm_num) hx) (by intro y hy; simp at hy; omega) hrev
    exact digits_ne_zero_list hm this
  · rw [if_neg hm, if_neg hn] at h
    have hd := congrArg String.data h
    have hA : ((Nat.digits 10 m).map Nat.digitChar).reverse =
        ((Nat.digits 10 n).map Nat.digitChar).reverse := hd
    have hmap := List.reverse_injective hA
    have hdig := map_digitChar_inj (Nat.digits 10 m) (Nat.digits 10 n)
      (fun x hx => Nat.digits_lt_base (by norm_num) hx)
      (fun y hy => Nat.digits_lt_base (by norm_num) hy) hmap
    exact Nat.digits.injective 10 hdig

/-- Cancel a common string prefix before a decimal rendering. -/
theorem append_natToString_inj (pre : String) {i j : Nat}
    (h : pre ++ natToString i = pre ++ natToString j) : i = j := by
  have h2 := congrArg String.data h
  simp only [String.data_append] at h2
  exact natToString_injective (String.ext (List.append_cancel_left h2))

/-- The deterministic vector id is injective in the chunk index. -/
theorem vectorId_inj (t f : String) {i j : Nat}
    (h : Indexer.vectorId t f i = Indexer.vectorId t f j) : i = j :=
  append_natToString_inj (t ++ "-" ++ f ++ "-") h

/-- The spec-side vector id is injective in the chunk index. -/
theorem specVectorId_inj (sid : String) {i j : Nat}
    (h : SpecModel.specVectorId sid i = SpecModel.specVectorId sid j) : i = j :=
  append_natToString_inj (sid ++ "-") h

/-! Section: Lemmas about the chunks helper -/

/-- Concatenating the batches gives back the input. -/
theorem chunksAux_flatten {α : Type} (bs : Nat) (hbs : 0 < bs) :
    ∀ (fuel : Nat) (xs : List α), xs.length ≤ fuel →
      (chunksAux bs fuel xs).flatten = xs := by
  intro fuel
  induction fuel with
  | zero =>
    intro xs h
    cases xs with
    | nil => rfl
    | cons x xs => simp at h
  | succ n ih =>
    intro xs h
    cases xs with
    | nil => rfl
    | cons x xs =>
      simp only [chunksAux, if_neg (by omega : ¬ bs = 0), List.flatten_cons]
      have hdrop : ((x :: xs).drop bs).length ≤ n := by
        simp only [List.length_drop, List.length_cons]
        simp only [List.length_cons] at h
        omega
      rw [ih ((x :: xs).drop bs) hdrop]
      exact List.take_append_drop bs (x :: xs)

/-- Concatenating the batches gives back the input. -/
theorem chunks_flatten {α : Type} (bs : Nat) (hbs : 0 < bs) (xs : List α) :
    (chunks bs xs).flatten = xs :=
  chunksAux_flatten bs hbs xs.length xs le_rfl

/-- Every batch is nonempty and no longer than the batch size. -/
theorem chunksAux_batch_bounds {α : Type} (bs : Nat) (hbs : 0 < bs) :
    ∀ (fuel : Nat) (xs : List α) (c : List α), xs.length ≤ fuel →
      c ∈ chunksAux bs fuel xs → c ≠ [] ∧ c.length ≤ bs := by
  intro fuel
  induction fuel with
  | zero =>
    intro xs c h hc
    cases xs with
    | nil => simp [chunksAux] at hc
    | cons x xs => simp at h
  | succ n ih =>
    intro xs c h hc
    cases xs with
    | nil => simp [chunksAux] at hc
    | cons x xs =>
      simp only [chunksAux, if_neg (by omega : ¬ bs = 0)] at hc
      rcases List.mem_cons.mp hc with h1 | h1
      · subst h1
        constructor
        · cases bs with
          | zero => omega
          | succ b => simp
        · simp only [List.length_take]
          omega
      · have hdrop : ((x :: xs).drop bs).length ≤ n := by
          simp only [List.length_drop, List.length_cons]
          simp only [List.length_cons] at h
          omega
        exact ih ((x :: xs).drop bs) c hdrop h1

/-- Every batch is nonempty and no longer than the batch size. -/
theorem chunks_batch_bounds {α : Type} (bs : Nat) (hbs : 0 < bs) (xs : List α)
    (c : List α) (hc : c ∈ chunks bs xs) : c ≠ [] ∧ c.length ≤ bs :=
  chunksAux_batch_bounds bs hbs xs.length xs c le_rfl hc

/-- Folding batchwise over the chunks equals folding over the input. -/
theorem foldl_chunks {α β : Type} (bs : Nat) (hbs : 0 < bs) (f : β → α → β)
    (b : β) (xs : List α) :
    (chunks bs xs).foldl (fun acc batch => batch.foldl f acc) b = xs.foldl f b := by
  conv_rhs => rw [← chunks_flatten bs hbs xs]
  rw [List.foldl_flatten]

/-- Claim C10: for every input list and positive batch size, the chunks
helper yields only nonempty batches of at most the batch size, and their
concatenation, in order, is the input: nothing is dropped, duplicated, or
reordered. -/
theorem c10_chunks {α : Type} (bs : Nat) (xs : List α) (hbs : 0 < bs) :
    (chunks bs xs).flatten = xs ∧
      ∀ c ∈ chunks bs xs, c ≠ [] ∧ c.length ≤ bs :=
  ⟨chunks_flatten bs hbs xs, fun c hc => chunks_batch_bounds bs hbs xs c hc⟩

/-- Witness for C10 at batch size 3 over a seven-element list. -/
theorem c10_chunks_witness :
    0 < 3 ∧
      ((chunks 3 [0, 1, 2, 3, 4, 5, 6]).flatten = [0, 1, 2, 3, 4, 5, 6] ∧
        ∀ c ∈ chunks 3 [0, 1, 2, 3, 4, 5, 6], c ≠ [] ∧ c.length ≤ 3) :=
  ⟨by decide, c10_chunks 3 [0, 1, 2, 3, 4, 5, 6] (by decide)⟩

/-! Section: Lemmas about the vector index -/

/-- Membership in the ids after one upsert. -/
theorem mem_vecIds_upsertVector (ix : VIndex) (kv : String × VectorRecord) (k : String) :
    k ∈ vecIds (upsertVector ix kv) ↔ k ∈ vecIds ix ∨ k = kv.1 := by
  induction ix with
  | nil => simp [upsertVector, vecIds, eq_comm]
  | cons e rest ih =>
    by_cases he : e.1 = kv.1
    · simp only [upsertVector, if_pos he, vecIds, List.map_cons, List.mem_cons]
      rw [he]
      tauto
    · simp only [upsertVector, if_neg he, vecIds, List.map_cons, List.mem_cons]
      simp only [vecIds] at ih
      rw [ih]
      tauto

/-- Upserting an id already present leaves the id list unchanged. -/
theorem vecIds_upsertVector_of_mem (ix : VIndex) (kv : String × VectorRecord)
    (h : kv.1 ∈ vecIds ix) : vecIds (upsertVector ix kv) = vecIds ix := by
  induction ix with
  | nil => simp [vecIds] at h
  | cons e rest ih =>
    by_cases he : e.1 = kv.1
    · simp [upsertVector, if_pos he, vecIds, he]
    · have h2 : kv.1 ∈ vecIds rest := by
        simp only [vecIds, List.map_cons, List.mem_cons] at h
        rcases h with h1 | h1
        · exact absurd h1.symm he
        · exact h1
      have ih2 := ih h2
      simp only [vecIds] at ih2 ⊢
      simp only [upsertVector, if_neg he, List.map_cons]
      rw [ih2]

/-- Upserting a fresh id appends it to the id list. -/
theorem vecIds_upsertVector_of_not_mem (ix : VIndex) (kv : String × VectorRecord)
    (h : kv.1 ∉ vecIds ix) : vecIds (upsertVector ix kv) = vecIds ix ++ [kv.1] := by
  induction ix with
  | nil => simp [upsertVector, vecIds]
  | cons e rest ih =>
    simp only [vecIds, List.map_cons, List.mem_cons] at h
    push_neg at h
    have he : e.1 ≠ kv.1 := fun hc => h.1 hc.symm
    have ih2 := ih (by simpa [vecIds] using h.2)
    simp only [vecIds] at ih2 ⊢
    simp only [upsertVector, if_neg he, List.map_cons]
    rw [ih2]
    rfl

/-- Upserts preserve distinctness of the ids. -/
theorem nodup_vecIds_upsertVector (ix : VIndex) (kv : String × VectorRecord)
    (h : (vecIds ix).Nodup) : (vecIds (upsertVector ix kv)).Nodup := by
  by_cases hm : kv.1 ∈ vecIds ix
  · rw [vecIds_upsertVector_of_mem ix kv hm]; exact h
  · rw [vecIds_upsertVector_of_not_mem ix kv hm]
    simp [List.nodup_append, h, hm]

/-- A fold of upserts preserves distinctness of the ids. -/
theorem nodup_vecIds_foldl_upsert (us : List (String × VectorRecord)) :
    ∀ ix : VIndex, (vecIds ix).Nodup → (vecIds (us.foldl upsertVector ix)).Nodup := by
  induction us with
  | nil => intro ix h; exact h
  | cons kv us ih =>
    intro ix h
    exact ih (upsertVector ix kv) (nodup_vecIds_upsertVector ix kv h)

/-- Membership in the ids after a fold of upserts. -/
theorem mem_vecIds_foldl_upsert (us : List (String × VectorRecord)) :
    ∀ (ix : VIndex) (k : String),
      k ∈ vecIds (us.foldl upsertVector ix) ↔ k ∈ vecIds ix ∨ k ∈ us.map Prod.fst := by
  induction us with
  | nil => simp
  | cons kv us ih =>
    intro ix k
    simp only [List.foldl_cons, ih, mem_vecIds_upsertVector, List.map_cons, List.mem_cons]
    tauto

/-- Looking up after one upsert. -/
theorem lookupV_upsertVector (ix : VIndex) (kv : String × VectorRecord) (k : String) :
    lookupV (upsertVector ix kv) k = if kv.1 = k then some kv else lookupV ix k := by
  induction ix with
  | nil =>
    simp only [upsertVector, lookupV, List.find?]
    by_cases h : kv.1 = k
    · simp [h]
    · simp [h, beq_eq_false_iff_ne.mpr h]
  | cons e rest ih =>
    by_cases he : e.1 = kv.1
    · simp only [upsertVector, if_pos he, lookupV, List.find?]
      by_cases h : kv.1 = k
      · simp [h]
      · simp only [beq_eq_false_iff_ne.mpr h, if_neg h]
        simp only [lookupV, List.find?, beq_eq_false_iff_ne.mpr (he ▸ h)]
    · simp only [upsertVector, if_neg he, lookupV, List.find?]
      by_cases h : e.1 = k
      · have hk : kv.1 ≠ k := fun hc => he (hc ▸ h)
        simp only [if_neg hk]
        simp only [lookupV, List.find?] at ih ⊢
        simp [beq_iff_eq.mpr h]
      · simp only [beq_eq_false_iff_ne.mpr h]
        simpa [lookupV, List.find?, beq_eq_false_iff_ne.mpr h] using ih

/-- Upserting the exact record already stored at an id is a no-op when ids
are distinct. -/
theorem upsertVector_of_lookup (ix : VIndex) (kv : String × VectorRecord)
    (hnd : (vecIds ix).Nodup) (h : lookupV ix kv.1 = some kv) :
    upsertVector ix kv = ix := by
  induction ix with
  | nil => simp [lookupV, List.find?] at h
  | cons e rest ih =>
    by_cases he : e.1 = kv.1
    · have : lookupV (e :: rest) kv.1 = some e := by
        simp [lookupV, List.find?, beq_iff_eq.mpr he]
      rw [this] at h
      cases h
      simp [upsertVector, if_pos he]
    · have hrest : lookupV rest kv.1 = some kv := by
        simpa [lookupV, List.find?, beq_eq_false_iff_ne.mpr he] using h
      have hnd2 : (vecIds rest).Nodup := by
        simp only [vecIds, List.map_cons, List.nodup_cons] at hnd
        exact hnd.2
      simp only [upsertVector, if_neg he]
      rw [ih hnd2 hrest]

/-- A fold of upserts at other ids does not disturb a lookup. -/
theorem lookupV_foldl_of_ne (us : List (String × VectorRecord)) (k : String)
    (h : ∀ kv ∈ us, kv.1 ≠ k) :
    ∀ ix : VIndex, lookupV (us.foldl upsertVector ix) k = lookupV ix k := by
  induction us with
  | nil => intro ix; rfl
  | cons kv us ih =>
    intro ix
    rw [List.foldl_cons, ih (fun e he => h e (by simp [he])),
      lookupV_upsertVector, if_neg (h kv (by simp))]

/-- After folding a batch with distinct ids, each pair of the batch is
stored verbatim. -/
theorem lookupV_foldl_upsert (us : List (String × VectorRecord))
    (hnd : (us.map Prod.fst).Nodup) :
    ∀ (ix : VIndex) (kv : String × VectorRecord), kv ∈ us →
      lookupV (us.foldl upsertVector ix) kv.1 = some kv := by
  induction us with
  | nil => intro ix kv h; simp at h
  | cons kv0 us ih =>
    intro ix kv h
    simp only [List.map_cons, List.nodup_cons] at hnd
    rcases List.mem_cons.mp h with h1 | h1
    · subst h1
      rw [List.foldl_cons,
        lookupV_foldl_of_ne us kv.1 (fun e he hc => hnd.1 (hc ▸ List.mem_map_of_mem Prod.fst he)),
        lookupV_upsertVector, if_pos rfl]
    · exact ih hnd.2 (upsertVector ix kv0) kv h1

/-- Folding a batch whose pairs are all already stored verbatim is a
no-op. -/
theorem foldl_upsert_eq_self (us : List (String × VectorRecord)) :
    ∀ ix : VIndex, (vecIds ix).Nodup →
      (∀ kv ∈ us, lookupV ix kv.1 = some kv) → us.foldl upsertVector ix = ix := by
  induction us with
  | nil => intro ix _ _; rfl
  | cons kv us ih =>
    intro ix hnd h
    rw [List.foldl_cons, upsertVector_of_lookup ix kv hnd (h kv (by simp))]
    exact ih ix hnd fun e he => h e (by simp [he])

/-- Deleting the empty id list is a no-op. -/
theorem deleteVectors_nil (ix : VIndex) : deleteVectors ix [] = ix := by
  simp [deleteVectors]

/-- Deleting twice deletes the concatenation. -/
theorem deleteVectors_deleteVectors (ix : VIndex) (a b : List String) :
    deleteVectors (deleteVectors ix a) b = deleteVectors ix (a ++ b) := by
  simp only [deleteVectors, List.filter_filter]
  congr 1
  funext e
  by_cases ha : e.1 ∈ a <;> by_cases hb : e.1 ∈ b <;>
    simp [List.elem_eq_mem, ha, hb, List.mem_append]

/-- A fold of batchwise deletions deletes the concatenation of the
batches. -/
theorem foldl_delete_flatten (L : List (List String)) :
    ∀ ix : VIndex, L.foldl (fun j batch => deleteVectors j batch) ix =
      deleteVectors ix L.flatten := by
  induction L with
  | nil => intro ix; simp [deleteVectors_nil]
  | cons a L ih =>
    intro ix
    rw [List.foldl_cons, ih, List.flatten_cons, deleteVectors_deleteVectors]

/-- Membership in the ids after a deletion. -/
theorem mem_vecIds_deleteVectors (ix : VIndex) (ids : List String) (k : String) :
    k ∈ vecIds (deleteVectors ix ids) ↔ k ∈ vecIds ix ∧ k ∉ ids := by
  simp only [vecIds, deleteVectors, List.mem_map, List.mem_filter,
    List.elem_eq_mem, Bool.not_eq_true', decide_eq_false_iff_not]
  constructor
  · rintro ⟨e, ⟨he, hf⟩, hk⟩
    subst hk
    exact ⟨⟨e, he, rfl⟩, hf⟩
  · rintro ⟨⟨e, he, hk⟩, hni⟩
    subst hk
    exact ⟨e, ⟨he, hni⟩, rfl⟩

/-- Deletions do not disturb lookups of ids outside the deleted list. -/
theorem lookupV_deleteVectors_of_not_mem (ix : VIndex) (ids : List String) (k : String)
    (h : k ∉ ids) : lookupV (deleteVectors ix ids) k = lookupV ix k := by
  induction ix with
  | nil => rfl
  | cons e rest ih =>
    by_cases hm : e.1 ∈ ids
    · have hc : ids.contains e.1 = true := by simp [List.elem_eq_mem, hm]
      have hek : (e.1 == k) = false := beq_eq_false_iff_ne.mpr fun hx => h (hx ▸ hm)
      simp only [deleteVectors, List.filter_cons, hc, Bool.not_true, Bool.false_eq_true,
        if_false]
      simp only [lookupV, List.find?, hek]
      exact ih
    · have hc : ids.contains e.1 = false := by simp [List.elem_eq_mem, hm]
      simp only [deleteVectors, List.filter_cons, hc, Bool.not_false, if_true]
      by_cases hek : e.1 = k
      · simp [lookupV, List.find?, beq_iff_eq.mpr hek]
      · simp only [lookupV, List.find?, beq_eq_false_iff_ne.mpr hek]
        exact ih

/-- Deletions preserve distinctness of the ids. -/
theorem nodup_vecIds_deleteVectors (ix : VIndex) (ids : List String)
    (h : (vecIds ix).Nodup) : (vecIds (deleteVectors ix ids)).Nodup := by
  have hs : List.Sublist (deleteVectors ix ids) ix := List.filter_sublist ix
  have hs2 : List.Sublist (vecIds (deleteVectors ix ids)) (vecIds ix) :=
    hs.map Prod.fst
  exact List.Nodup.sublist hs2 h

/-- Ids present in the concrete range index. -/
theorem mem_vecIds_idRange (f : Nat → String) (hf : ∀ i j, f i = f j → i = j)
    (n k : Nat) : f k ∈ vecIds (idRange f n) ↔ k < n := by
  simp only [idRange, vecIds, List.map_map, List.mem_map, Function.comp]
  constructor
  · rintro ⟨i, hi, h⟩
    rw [← hf i k h]
    exact List.mem_range.mp hi
  · intro h
    exact ⟨k, List.mem_range.mpr h, rfl⟩

/-! Section: Lemmas about the Indexer upsert path -/

/-- Mapping a list to fixed points of a function changes nothing. -/
theorem map_eq_self_of_fixed {α : Type} {l : List α} {g : α → α}
    (h : ∀ x ∈ l, g x = x) : l.map g = l := by
  induction l with
  | nil => rfl
  | cons x xs ih =>
    rw [List.map_cons, h x (by simp), ih fun a ha => h a (by simp [ha])]

/-- The ids the upsert path writes are the deterministic ids of the chunk
indices. -/
theorem upsertData_keys (encode : String → Int) (p : Indexer.UpsertPayload)
    (ss : List String) :
    (Indexer.upsertData encode p ss).map Prod.fst =
      (List.range ss.length).map (Indexer.vectorId p.team p.file_id) := by
  simp [Indexer.upsertData, List.map_map, Function.comp]

/-- The deterministic id at a fixed team and source is injective. -/
theorem vectorId_injective (t f : String) : Function.Injective (Indexer.vectorId t f) :=
  fun _ _ h => vectorId_inj t f h

/-- The upsert batch has distinct ids. -/
theorem upsertData_keys_nodup (encode : String → Int) (p : Indexer.UpsertPayload)
    (ss : List String) : ((Indexer.upsertData encode p ss).map Prod.fst).Nodup := by
  rw [upsertData_keys]
  exact (List.nodup_range _).map (vectorId_injective p.team p.file_id)

/-- Membership of a deterministic id in the id range of the upsert batch. -/
theorem vectorId_mem_map_range (t f : String) (L i : Nat) :
    Indexer.vectorId t f i ∈ (List.range L).map (Indexer.vectorId t f) ↔ i < L := by
  simp only [List.mem_map, List.mem_range]
  constructor
  · rintro ⟨j, hj, h⟩
    rw [← vectorId_inj t f h]
    exact hj
  · intro h
    exact ⟨i, h, rfl⟩

/-- Membership of a deterministic id in the trailing deleted range. -/
theorem vectorId_mem_map_range' (t f : String) (a len i : Nat) :
    Indexer.vectorId t f i ∈ (List.range' a len).map (Indexer.vectorId t f) ↔
      a ≤ i ∧ i < a + len := by
  simp only [List.mem_map, List.mem_range'_1]
  constructor
  · rintro ⟨j, hj, h⟩
    rw [← vectorId_inj t f h]
    exact hj
  · intro h
    exact ⟨i, h, rfl⟩

/-- Ledger lookups commute with the column update, which does not touch
`file_id`. -/
theorem lookupDoc_setDocFields (docs : List Indexer.Document) (i : Nat)
    (us : List String) (nv : Nat) (fid : String) :
    Indexer.lookupDoc (Indexer.setDocFields docs i us nv) fid =
      (Indexer.lookupDoc docs fid).map
        fun d => if d.id = i then { d with users := us, num_vectors := nv } else d := by
  unfold Indexer.lookupDoc Indexer.setDocFields
  rw [List.find?_map]
  have hp : ((fun d : Indexer.Document => d.file_id == fid) ∘ fun d =>
      if d.id = i then { d with users := us, num_vectors := nv } else d) =
      fun d : Indexer.Document => d.file_id == fid := by
    funext d
    by_cases h : d.id = i <;> simp [h, Function.comp]
  rw [hp]

/-- Membership in the unioned access list. -/
theorem mem_addUser (us : List String) (u v : String) :
    v ∈ Indexer.addUser us u ↔ v ∈ us ∨ v = u := by
  unfold Indexer.addUser
  by_cases h : u ∈ us
  · simp only [if_pos h]
    constructor
    · intro hv; exact Or.inl hv
    · rintro (hv | hv)
      · exact hv
      · rw [hv]; exact h
  · simp [if_neg h]

/-- The new user is always in the unioned access list. -/
theorem addUser_self_mem (us : List String) (u : String) : u ∈ Indexer.addUser us u := by
  rw [mem_addUser]
  right
  rfl

/-- Unioning the same user twice changes nothing the second time. -/
theorem addUser_idem (us : List String) (u : String) :
    Indexer.addUser (Indexer.addUser us u) u = Indexer.addUser us u := by
  unfold Indexer.addUser
  by_cases h : u ∈ us
  · simp [if_pos h, h]
  · simp [if_neg h]

/-- Every element is bounded by the right fold of max. -/
theorem le_foldr_max (l : List Nat) : ∀ x ∈ l, x ≤ l.foldr max 0 := by
  induction l with
  | nil => intro x hx; simp at hx
  | cons a l ih =>
    intro x hx
    rcases List.mem_cons.mp hx with h | h
    · rw [h, List.foldr_cons]
      exact le_max_left _ _
    · rw [List.foldr_cons]
      exact le_trans (ih x h) (le_max_right _ _)

/-- The fresh autoincrement key differs from every stored key. -/
theorem freshDocId_not_mem (docs : List Indexer.Document) :
    ∀ d ∈ docs, d.id ≠ Indexer.freshDocId docs := by
  intro d hd hc
  have hle := le_foldr_max (docs.map Indexer.Document.id) d.id
    (List.mem_map_of_mem Indexer.Document.id hd)
  unfold Indexer.freshDocId at hc
  omega

/-- Setting the same column values twice equals setting them once. -/
theorem setDocFields_idem (docs : List Indexer.Document) (i : Nat)
    (us : List String) (nv : Nat) :
    Indexer.setDocFields (Indexer.setDocFields docs i us nv) i us nv =
      Indexer.setDocFields docs i us nv := by
  unfold Indexer.setDocFields
  rw [List.map_map]
  congr 1
  funext d
  by_cases h : d.id = i <;> simp [h, Function.comp]

/-- Claim C1: for a source previously indexed with N chunks, re-running the
Indexer upsert path on a descriptor whose extraction yields M < N chunks
deletes exactly the orphaned trailing vector ids `[M, N)` for that source,
leaves exactly the ids of the M chunk indices present, and updates the
ledger row to `num_vectors = M`. -/
theorem c1_shrink_reconciliation
    (encode : String → Int) (split : String → List String) (p : Indexer.UpsertPayload)
    (s : Indexer.IndexerState) (d : Indexer.Document) (M N : Nat)
    (hfind : Indexer.lookupDoc s.docs p.file_id = some d)
    (hN : d.num_vectors = N)
    (hM : (Indexer.computeSentences split p).length = M)
    (hMN : M < N)
    (hpresent : ∀ i, Indexer.vectorId p.team p.file_id i ∈ vecIds s.index ↔ i < N) :
    (∀ i, Indexer.vectorId p.team p.file_id i ∈
        vecIds (Indexer.upsertPath encode split p s).index ↔ i < M) ∧
    (∃ d1, Indexer.lookupDoc (Indexer.upsertPath encode split p s).docs p.file_id =
        some d1 ∧ d1.num_vectors = M) ∧
    (∀ k, Indexer.IndexerEvent.vectorDelete k ∈ Indexer.upsertPathEvents split p s ↔
        ∃ i, M ≤ i ∧ i < N ∧ k = Indexer.vectorId p.team p.file_id i) := by
  subst hN
  subst hM
  refine ⟨?_, ?_, ?_⟩
  · intro i
    simp only [Indexer.upsertPath, hfind, if_pos hMN, foldl_chunks 100 (by norm_num),
      foldl_delete_flatten, chunks_flatten 100 (by norm_num)]
    rw [mem_vecIds_deleteVectors, mem_vecIds_foldl_upsert, upsertData_keys,
      vectorId_mem_map_range, vectorId_mem_map_range', hpresent i]
    omega
  · refine ⟨⟨d.id, d.team, d.user, Indexer.addUser d.users p.user, d.file_id, d.name,
      d.type, d.url, (Indexer.computeSentences split p).length⟩, ?_, rfl⟩
    simp only [Indexer.upsertPath, hfind]
    rw [lookupDoc_setDocFields, hfind]
    simp
  · intro k
    simp only [Indexer.upsertPathEvents, hfind, if_pos hMN]
    simp only [List.mem_cons, List.mem_append, List.mem_map, List.mem_range,
      List.mem_range'_1]
    constructor
    · intro h
      rcases h with h | ⟨i, _, h⟩ | ⟨i, hi, h⟩
      · exact Indexer.IndexerEvent.noConfusion h
      · exact Indexer.IndexerEvent.noConfusion h
      · injection h with h2
        exact ⟨i, hi.1, by omega, h2.symm⟩
    · rintro ⟨i, h1, h2, h3⟩
      right; right
      exact ⟨i, ⟨h1, by omega⟩, by rw [h3]⟩

/-- Witness for C1: the concrete five-chunk state reindexed to three
chunks. -/
theorem c1_shrink_reconciliation_witness :
    (Indexer.lookupDoc Indexer.state0.docs Indexer.payload0.file_id =
        some Indexer.doc0 ∧
      Indexer.doc0.num_vectors = 5 ∧
      (Indexer.computeSentences Indexer.split0 Indexer.payload0).length = 3 ∧
      3 < 5 ∧
      ∀ i, Indexer.vectorId Indexer.payload0.team Indexer.payload0.file_id i ∈
          vecIds Indexer.state0.index ↔ i < 5) ∧
    ((∀ i, Indexer.vectorId Indexer.payload0.team Indexer.payload0.file_id i ∈
        vecIds (Indexer.upsertPath Indexer.encode0 Indexer.split0 Indexer.payload0
          Indexer.state0).index ↔ i < 3) ∧
      (∃ d1, Indexer.lookupDoc (Indexer.upsertPath Indexer.encode0 Indexer.split0
          Indexer.payload0 Indexer.state0).docs Indexer.payload0.file_id =
          some d1 ∧ d1.num_vectors = 3) ∧
      (∀ k, Indexer.IndexerEvent.vectorDelete k ∈
          Indexer.upsertPathEvents Indexer.split0 Indexer.payload0 Indexer.state0 ↔
          ∃ i, 3 ≤ i ∧ i < 5 ∧
            k = Indexer.vectorId Indexer.payload0.team Indexer.payload0.file_id i)) := by
  have hpres : ∀ i, Indexer.vectorId Indexer.payload0.team Indexer.payload0.file_id i ∈
      vecIds Indexer.state0.index ↔ i < 5 := fun i =>
    mem_vecIds_idRange (Indexer.vectorId "T" "F")
      (fun a b hab => vectorId_inj "T" "F" hab) 5 i
  exact ⟨⟨by decide, rfl, by decide, by decide, hpres⟩,
    c1_shrink_reconciliation Indexer.encode0 Indexer.split0 Indexer.payload0
      Indexer.state0 Indexer.doc0 3 5 (by decide) rfl (by decide) (by decide) hpres⟩

/-- Claim C8: when the Indexer re-indexes a source that already has a
ledger row, the stored access list becomes the union of its previous value
and the descriptor user; every previously present user remains present. -/
theorem c8_access_union
    (encode : String → Int) (split : String → List String) (p : Indexer.UpsertPayload)
    (s : Indexer.IndexerState) (d : Indexer.Document)
    (hfind : Indexer.lookupDoc s.docs p.file_id = some d) :
    ∃ d1, Indexer.lookupDoc (Indexer.upsertPath encode split p s).docs p.file_id =
        some d1 ∧ ∀ u, u ∈ d1.users ↔ u ∈ d.users ∨ u = p.user := by
  refine ⟨⟨d.id, d.team, d.user, Indexer.addUser d.users p.user, d.file_id, d.name,
      d.type, d.url, (Indexer.computeSentences split p).length⟩, ?_, ?_⟩
  · simp only [Indexer.upsertPath, hfind]
    rw [lookupDoc_setDocFields, hfind]
    simp
  · intro u
    exact mem_addUser d.users p.user u

/-- Witness for C8 at the concrete state: user U joins the access list that
already held U0, and U0 stays. -/
theorem c8_access_union_witness :
    Indexer.lookupDoc Indexer.state0.docs Indexer.payload0.file_id =
        some Indexer.doc0 ∧
      ∃ d1, Indexer.lookupDoc (Indexer.upsertPath Indexer.encode0 Indexer.split0
          Indexer.payload0 Indexer.state0).docs Indexer.payload0.file_id =
          some d1 ∧ ∀ u, u ∈ d1.users ↔ u ∈ Indexer.doc0.users ∨ u = Indexer.payload0.user :=
  ⟨by decide, c8_access_union Indexer.encode0 Indexer.split0 Indexer.payload0
    Indexer.state0 Indexer.doc0 (by decide)⟩

/-- Counterexample to C9 as stated: on the concrete shrink re-index the
event trace performs the ledger write before the vector mutations, so the
ledger row is not persisted last. -/
theorem c9_counterexample :
    ¬ Indexer.ledgerPersistedLast
        (Indexer.upsertPathEvents Indexer.split0 Indexer.payload0 Indexer.state0) := by
  decide

/-- Amended C9: the upsert path persists the updated ledger row first, as
its initial side effect, and every later event of the trace is a vector
mutation, never a ledger write. -/
theorem c9_ledger_write_first (split : String → List String) (p : Indexer.UpsertPayload)
    (s : Indexer.IndexerState) :
    (Indexer.upsertPathEvents split p s).head? =
        some (Indexer.IndexerEvent.ledgerWrite p.file_id
          (Indexer.computeSentences split p).length) ∧
      ∀ e ∈ (Indexer.upsertPathEvents split p s).tail, Indexer.isLedger e = false := by
  constructor
  · rfl
  · intro e he
    simp only [Indexer.upsertPathEvents, List.tail_cons, List.mem_append,
      List.mem_map] at he
    rcases he with ⟨i, _, h⟩ | he2
    · rw [← h]; rfl
    · split at he2
      · rcases List.mem_map.mp he2 with ⟨i, _, h⟩
        rw [← h]; rfl
      · simp at he2

/-- Witness for amended C9 at the concrete shrink re-index. -/
theorem c9_ledger_write_first_witness :
    (Indexer.upsertPathEvents Indexer.split0 Indexer.payload0 Indexer.state0).head? =
        some (Indexer.IndexerEvent.ledgerWrite Indexer.payload0.file_id
          (Indexer.computeSentences Indexer.split0 Indexer.payload0).length) ∧
      ∀ e ∈ (Indexer.upsertPathEvents Indexer.split0 Indexer.payload0
          Indexer.state0).tail, Indexer.isLedger e = false :=
  c9_ledger_write_first Indexer.split0 Indexer.payload0 Indexer.state0

/-- Two indexer states with equal components are equal. -/
theorem indexerState_ext (a b : Indexer.IndexerState) (h1 : a.docs = b.docs)
    (h2 : a.index = b.index) : a = b := by
  cases a
  cases b
  cases h1
  cases h2
  rfl

/-- Every pair written by the upsert path survives the run verbatim: its
id is stored with exactly its record. -/
theorem upsertPath_stores_pairs (encode : String → Int) (split : String → List String)
    (p : Indexer.UpsertPayload) (s : Indexer.IndexerState) :
    ∀ kv ∈ Indexer.upsertData encode p (Indexer.computeSentences split p),
      lookupV (Indexer.upsertPath encode split p s).index kv.1 = some kv := by
  intro kv hkv
  have hU := upsertData_keys_nodup encode p (Indexer.computeSentences split p)
  have hbase := lookupV_foldl_upsert _ hU s.index kv hkv
  have hkey : kv.1 ∈ ((Indexer.upsertData encode p
      (Indexer.computeSentences split p)).map Prod.fst) :=
    List.mem_map_of_mem Prod.fst hkv
  rw [upsertData_keys] at hkey
  rcases List.mem_map.mp hkey with ⟨i, hi, hkeq⟩
  have hiL : i < (Indexer.computeSentences split p).length := List.mem_range.mp hi
  cases hfind : Indexer.lookupDoc s.docs p.file_id with
  | none =>
    simp only [Indexer.upsertPath, hfind, foldl_chunks 100 (by norm_num),
      Nat.not_lt_zero, if_false]
    exact hbase
  | some d =>
    simp only [Indexer.upsertPath, hfind, foldl_chunks 100 (by norm_num)]
    by_cases hlt : (Indexer.computeSentences split p).length < d.num_vectors
    · simp only [if_pos hlt, foldl_delete_flatten, chunks_flatten 100 (by norm_num)]
      rw [lookupV_deleteVectors_of_not_mem]
      · exact hbase
      · intro hmem
        rw [← hkeq] at hmem
        rw [vectorId_mem_map_range'] at hmem
        omega
    · simp only [if_neg hlt]
      exact hbase

/-- The id list of the index stays duplicate-free across the upsert path. -/
theorem nodup_vecIds_upsertPath (encode : String → Int) (split : String → List String)
    (p : Indexer.UpsertPayload) (s : Indexer.IndexerState)
    (hnd : (vecIds s.index).Nodup) :
    (vecIds (Indexer.upsertPath encode split p s).index).Nodup := by
  cases hfind : Indexer.lookupDoc s.docs p.file_id with
  | none =>
    simp only [Indexer.upsertPath, hfind, foldl_chunks 100 (by norm_num),
      Nat.not_lt_zero, if_false]
    exact nodup_vecIds_foldl_upsert _ _ hnd
  | some d =>
    simp only [Indexer.upsertPath, hfind, foldl_chunks 100 (by norm_num)]
    by_cases hlt : (Indexer.computeSentences split p).length < d.num_vectors
    · simp only [if_pos hlt, foldl_delete_flatten, chunks_flatten 100 (by norm_num)]
      exact nodup_vecIds_deleteVectors _ _ (nodup_vecIds_foldl_upsert _ _ hnd)
    · simp only [if_neg hlt]
      exact nodup_vecIds_foldl_upsert _ _ hnd

/-- Re-updating the freshly inserted row with its own values changes
nothing: older rows have smaller keys and the new row already carries the
values. -/
theorem setDocFields_append_new (docs : List Indexer.Document)
    (p : Indexer.UpsertPayload) (L : Nat) :
    Indexer.setDocFields (docs ++ [Indexer.newDocument docs p L])
        (Indexer.newDocument docs p L).id [p.user] L =
      docs ++ [Indexer.newDocument docs p L] := by
  unfold Indexer.setDocFields
  rw [List.map_append]
  have hfix : docs.map (fun dd =>
      if dd.id = (Indexer.newDocument docs p L).id then
        { dd with users := [p.user], num_vectors := L }
      else dd) = docs := by
    apply map_eq_self_of_fixed
    intro x hx
    rw [if_neg]
    exact freshDocId_not_mem docs x hx
  rw [hfix]
  simp [Indexer.newDocument]

/-- Claim C7: running the upsert path twice on the same descriptor with
the same extracted content yields the state of running it once, and the
resulting index holds no duplicate ids.  The hypothesis that the starting
index holds each id at most once is the key-uniqueness invariant of the
real vector store, which the association-list embedding makes explicit;
the theorem also shows the path preserves it. -/
theorem c7_idempotent (encode : String → Int) (split : String → List String)
    (p : Indexer.UpsertPayload) (s : Indexer.IndexerState)
    (hnd : (vecIds s.index).Nodup) :
    Indexer.upsertPath encode split p (Indexer.upsertPath encode split p s) =
      Indexer.upsertPath encode split p s ∧
    (vecIds (Indexer.upsertPath encode split p s).index).Nodup := by
  refine ⟨?_, nodup_vecIds_upsertPath encode split p s hnd⟩
  have hnd1 := nodup_vecIds_upsertPath encode split p s hnd
  have hlook := upsertPath_stores_pairs encode split p s
  cases hfind : Indexer.lookupDoc s.docs p.file_id with
  | some d =>
    have hdocs1 : (Indexer.upsertPath encode split p s).docs =
        Indexer.setDocFields s.docs d.id (Indexer.addUser d.users p.user)
          (Indexer.computeSentences split p).length := by
      simp only [Indexer.upsertPath, hfind]
    have hfind2 : Indexer.lookupDoc (Indexer.upsertPath encode split p s).docs
        p.file_id = some ⟨d.id, d.team, d.user, Indexer.addUser d.users p.user,
          d.file_id, d.name, d.type, d.url,
          (Indexer.computeSentences split p).length⟩ := by
      rw [hdocs1, lookupDoc_setDocFields, hfind]
      simp
    generalize hgen : Indexer.upsertPath encode split p s = s1
    rw [hgen] at hdocs1 hfind2 hnd1 hlook
    apply indexerState_ext
    · simp only [Indexer.upsertPath, hfind2]
      rw [hdocs1, addUser_idem, setDocFields_idem]
    · simp only [Indexer.upsertPath, hfind2, foldl_chunks 100 (by norm_num)]
      rw [if_neg (lt_irrefl _)]
      exact foldl_upsert_eq_self _ _ hnd1 hlook
  | none =>
    have hdocs1 : (Indexer.upsertPath encode split p s).docs =
        s.docs ++ [Indexer.newDocument s.docs p
          (Indexer.computeSentences split p).length] := by
      simp only [Indexer.upsertPath, hfind]
    have hfind2 : Indexer.lookupDoc (Indexer.upsertPath encode split p s).docs
        p.file_id = some (Indexer.newDocument s.docs p
          (Indexer.computeSentences split p).length) := by
      rw [hdocs1]
      unfold Indexer.lookupDoc at hfind ⊢
      rw [List.find?_append, hfind]
      simp [Indexer.newDocument, List.find?]
    generalize hgen : Indexer.upsertPath encode split p s = s1
    rw [hgen] at hdocs1 hfind2 hnd1 hlook
    apply indexerState_ext
    · simp only [Indexer.upsertPath, hfind2]
      have husers : Indexer.addUser (Indexer.newDocument s.docs p
          (Indexer.computeSentences split p).length).users p.user = [p.user] := by
        simp [Indexer.newDocument, Indexer.addUser]
      rw [husers, hdocs1]
      exact setDocFields_append_new s.docs p (Indexer.computeSentences split p).length
    · simp only [Indexer.upsertPath, hfind2, foldl_chunks 100 (by norm_num)]
      have hnv : (Indexer.newDocument s.docs p
          (Indexer.computeSentences split p).length).num_vectors =
          (Indexer.computeSentences split p).length := rfl
      rw [hnv, if_neg (lt_irrefl _)]
      exact foldl_upsert_eq_self _ _ hnd1 hlook

/-- Witness for C7 at the concrete state. -/
theorem c7_idempotent_witness :
    (vecIds Indexer.state0.index).Nodup ∧
      (Indexer.upsertPath Indexer.encode0 Indexer.split0 Indexer.payload0
          (Indexer.upsertPath Indexer.encode0 Indexer.split0 Indexer.payload0
            Indexer.state0) =
        Indexer.upsertPath Indexer.encode0 Indexer.split0 Indexer.payload0
          Indexer.state0 ∧
      (vecIds (Indexer.upsertPath Indexer.encode0 Indexer.split0 Indexer.payload0
          Indexer.state0).index).Nodup) :=
  ⟨by decide, c7_idempotent Indexer.encode0 Indexer.split0 Indexer.payload0
    Indexer.state0 (by decide)⟩

/-! Section: Lemmas about the Scheduler -/

/-- Filtering out by a guard and mapping the rest equals a filterMap with a
conditional body. -/
theorem filterMap_if_none {α β : Type} (q : α → Bool) (h : α → β) (l : List α) :
    (l.filterMap fun x => if q x then none else some (h x)) =
      (l.filter fun x => !q x).map h := by
  induction l with
  | nil => rfl
  | cons a l ih =>
    by_cases hq : q a
    · simp [List.filterMap_cons, List.filter_cons, hq, ih]
    · simp [List.filterMap_cons, List.filter_cons, hq, ih]

/-- The Google change-detection filter, characterized: a file is enqueued
exactly when the ledger row is absent, or its recorded timestamp is not
strictly newer than the file modification time, or the requesting user is
not yet in its access list. -/
theorem google_filter_map (db : List Scheduler.SchedDoc) (team user : String)
    (files : List Scheduler.GFile) :
    Scheduler.get_google_documents_to_upsert db team user files =
      (files.filter fun f => !Scheduler.googleSkip db user f).map
        (Scheduler.googleUpsertDoc team user) := by
  have h0 : Scheduler.get_google_documents_to_upsert db team user files =
      files.filterMap fun f =>
        if Scheduler.googleSkip db user f then none
        else some (Scheduler.googleUpsertDoc team user f) := rfl
  rw [h0, filterMap_if_none]

/-- The Notion change-detection filter, characterized with its additional
archived guard. -/
theorem notion_filter_map (db : List Scheduler.SchedDoc) (team user : String)
    (results : List Scheduler.NotionPage) :
    Scheduler.get_notion_documents_to_upsert db team user results =
      (results.filter fun r => !(Scheduler.notionSkip db user r || r.archived)).map
        (Scheduler.notionUpsertDoc team user) := by
  have h0 : Scheduler.get_notion_documents_to_upsert db team user results =
      results.filterMap fun r =>
        if Scheduler.notionSkip db user r then none
        else if r.archived then none
        else some (Scheduler.notionUpsertDoc team user r) := rfl
  have h1 : (fun r : Scheduler.NotionPage =>
      if Scheduler.notionSkip db user r then none
      else if r.archived then none
      else some (Scheduler.notionUpsertDoc team user r)) =
      fun r : Scheduler.NotionPage =>
        if (Scheduler.notionSkip db user r || r.archived) then none
        else some (Scheduler.notionUpsertDoc team user r) := by
    funext r
    by_cases ha : Scheduler.notionSkip db user r <;> by_cases hb : r.archived <;>
      simp [ha, hb]
  rw [h0, h1, filterMap_if_none]

/-- Counterexample to C3 as stated: a file whose modification time equals
the recorded ledger timestamp (so the descriptor is not strictly newer) is
still enqueued for a user already in the access list. -/
theorem c3_counterexample :
    Scheduler.get_google_documents_to_upsert [Scheduler.sdoc0] "T1" "U1"
        [Scheduler.gfile0] =
      [Scheduler.googleUpsertDoc "T1" "U1" Scheduler.gfile0] ∧
    ¬ Scheduler.lastUpdatedInDb Scheduler.sdoc0 < Scheduler.gfile0.modifiedTime ∧
    "U1" ∈ Scheduler.sdoc0.users := by
  refine ⟨?_, by decide, by decide⟩
  decide

/-- Amended C3: the Scheduler skips a descriptor exactly when the ledger
row exists, its recorded timestamp (update time, falling back to creation
time) is strictly newer than the descriptor timestamp, and the requesting
user is already in the access list (for Notion, archived pages are also
skipped); every other descriptor is enqueued, so equal timestamps or a new
user still enqueue. -/
theorem c3_skip_rule (db : List Scheduler.SchedDoc) (team user : String)
    (files : List Scheduler.GFile) (results : List Scheduler.NotionPage) :
    Scheduler.get_google_documents_to_upsert db team user files =
      (files.filter fun f => !Scheduler.googleSkip db user f).map
        (Scheduler.googleUpsertDoc team user) ∧
    Scheduler.get_notion_documents_to_upsert db team user results =
      (results.filter fun r => !(Scheduler.notionSkip db user r || r.archived)).map
        (Scheduler.notionUpsertDoc team user) :=
  ⟨google_filter_map db team user files, notion_filter_map db team user results⟩

/-- A list whose members pairwise satisfy a relation is pairwise. -/
theorem pairwise_of_mem {α : Type} {R : α → α → Prop} :
    ∀ l : List α, (∀ a ∈ l, ∀ b ∈ l, R a b) → l.Pairwise R := by
  intro l
  induction l with
  | nil => intro _; exact List.Pairwise.nil
  | cons a l ih =>
    intro h
    refine List.Pairwise.cons ?_ (ih fun x hx y hy => h x (by simp [hx]) y (by simp [hy]))
    intro b hb
    exact h a (by simp) b (by simp [hb])

/-- A successful poll emits exactly the read event followed by the cursor
advance for that token. -/
theorem processToken_ok_events (db : List Scheduler.SchedDoc) (t : Scheduler.SchedToken)
    (evs : List Scheduler.SchedEvent) (docs : List Scheduler.UpsertDoc)
    (h : Scheduler.processToken db t = Except.ok (evs, docs)) :
    ∃ c, evs = [Scheduler.SchedEvent.readDescriptors t.id,
      Scheduler.SchedEvent.advanceCursor t.id c] := by
  unfold Scheduler.processToken at h
  cases hr : t.response with
  | error e =>
    rw [hr] at h
    exact Except.noConfusion h
  | ok rr =>
    cases rr with
    | notionR cur results =>
      rw [hr] at h
      injection h with h2
      cases h2
      exact ⟨cur, rfl⟩
    | googleR cur files =>
      rw [hr] at h
      injection h with h2
      cases h2
      exact ⟨cur, rfl⟩

/-- Structure of every scheduling-run trace: a concatenation of
read-then-advance blocks, one per successfully polled token, followed only
by queue-send events. -/
theorem schedLoop_events_decomp (db : List Scheduler.SchedDoc) :
    ∀ (tokens : List Scheduler.SchedToken) (acc : List Scheduler.UpsertDoc),
      ∃ (blocks : List (List Scheduler.SchedEvent)) (tail : List Scheduler.SchedEvent),
        (Scheduler.schedLoop db acc tokens).events = blocks.flatten ++ tail ∧
        (∀ b ∈ blocks, ∃ t c, b = [Scheduler.SchedEvent.readDescriptors t,
            Scheduler.SchedEvent.advanceCursor t c]) ∧
        (∀ e ∈ tail, Scheduler.isEnq e = true) := by
  intro tokens
  induction tokens with
  | nil =>
    intro acc
    refine ⟨[], (chunks 10 acc).map Scheduler.SchedEvent.enqueueBatch, rfl, by simp, ?_⟩
    intro e he
    rcases List.mem_map.mp he with ⟨b, _, hb⟩
    rw [← hb]
    rfl
  | cons t rest ih =>
    intro acc
    by_cases hlim : Scheduler.UPSERT_LIMIT ≤ acc.length
    · refine ⟨[], (chunks 10 acc).map Scheduler.SchedEvent.enqueueBatch, ?_, by simp, ?_⟩
      · simp [Scheduler.schedLoop, hlim, Scheduler.finishRun]
      · intro e he
        rcases List.mem_map.mp he with ⟨b, _, hb⟩
        rw [← hb]
        rfl
    · cases hresp : Scheduler.processToken db t with
      | error e =>
        refine ⟨[], [], ?_, by simp, by simp⟩
        simp [Scheduler.schedLoop, hlim, hresp]
      | ok pr =>
        obtain ⟨evs, docs⟩ := pr
        obtain ⟨c, hevs⟩ := processToken_ok_events db t evs docs hresp
        obtain ⟨blocks, tail, hdec, hblocks, htail⟩ := ih (acc ++ docs)
        refine ⟨[Scheduler.SchedEvent.readDescriptors t.id,
            Scheduler.SchedEvent.advanceCursor t.id c] :: blocks, tail, ?_, ?_, htail⟩
        · simp only [Scheduler.schedLoop, if_neg hlim, hresp, hevs, List.flatten_cons,
            hdec, List.append_assoc]
        · intro b hb
          rcases List.mem_cons.mp hb with h1 | h1
          · exact ⟨t.id, c, h1⟩
          · exact hblocks b h1

/-- Counterexample to C4 as stated: on a successful run with one changed
file, the cursor advance happens before the queue send, so the cursor is
not advanced only after the descriptors are enqueued. -/
theorem c4_counterexample :
    ¬ Scheduler.cursorAdvanceAfterEnqueue
        (Scheduler.handler [] [Scheduler.tokOk]).events ∧
      (Scheduler.handler [] [Scheduler.tokOk]).enqueued ≠ [] := by
  decide

/-- Amended C4: in every scheduling run, each cursor advance is preceded by
the read of the descriptors of the same token, and every queue send comes
after every cursor advance - the cursor is persisted after reading but
before enqueueing. -/
theorem c4_cursor_order (db : List Scheduler.SchedDoc)
    (tokens : List Scheduler.SchedToken) :
    ((Scheduler.handler db tokens).events.Pairwise fun a b =>
        ¬(Scheduler.isEnq a = true ∧ Scheduler.isAdv b = true)) ∧
      ∀ t c, Scheduler.SchedEvent.advanceCursor t c ∈
          (Scheduler.handler db tokens).events →
        ∃ pre post, (Scheduler.handler db tokens).events =
            pre ++ Scheduler.SchedEvent.readDescriptors t :: post ∧
          Scheduler.SchedEvent.advanceCursor t c ∈ post := by
  obtain ⟨blocks, tail, hdec, hblocks, htail⟩ :=
    schedLoop_events_decomp db tokens []
  have hdec2 : (Scheduler.handler db tokens).events = blocks.flatten ++ tail := hdec
  have hnoenq : ∀ e ∈ blocks.flatten, Scheduler.isEnq e = false := by
    intro e he
    rcases List.mem_flatten.mp he with ⟨b, hb, heb⟩
    obtain ⟨t, c, hbeq⟩ := hblocks b hb
    subst hbeq
    rcases List.mem_cons.mp heb with h1 | h1
    · rw [h1]; rfl
    · simp only [List.mem_singleton] at h1
      rw [h1]; rfl
  have hnoadv : ∀ e ∈ tail, Scheduler.isAdv e = false := by
    intro e he
    have henq := htail e he
    cases e with
    | readDescriptors _ => rfl
    | advanceCursor _ _ => simp [Scheduler.isEnq] at henq
    | enqueueBatch _ => rfl
  constructor
  · rw [hdec2]
    apply List.pairwise_append.mpr
    refine ⟨?_, ?_, ?_⟩
    · apply pairwise_of_mem
      intro a ha b _
      intro hc
      rw [hnoenq a ha] at hc
      exact Bool.false_ne_true hc.1
    · apply pairwise_of_mem
      intro a _ b hb
      intro hc
      rw [hnoadv b hb] at hc
      exact Bool.false_ne_true hc.2
    · intro a ha b _
      intro hc
      rw [hnoenq a ha] at hc
      exact Bool.false_ne_true hc.1
  · intro t c hmem
    rw [hdec2] at hmem ⊢
    rcases List.mem_append.mp hmem with hm | hm
    · rcases List.mem_flatten.mp hm with ⟨b, hb, heb⟩
      obtain ⟨t', c', hbeq⟩ := hblocks b hb
      subst hbeq
      have hts : t' = t ∧ c' = c := by
        rcases List.mem_cons.mp heb with h1 | h1
        · exact Scheduler.SchedEvent.noConfusion h1
        · simp only [List.mem_singleton] at h1
          injection h1 with h2 h3
          exact ⟨h2.symm, h3.symm⟩
      obtain ⟨rfl, rfl⟩ := hts
      obtain ⟨bs1, bs2, hsplit⟩ := List.append_of_mem hb
      subst hsplit
      refine ⟨bs1.flatten,
        Scheduler.SchedEvent.advanceCursor t' c' :: (bs2.flatten ++ tail), ?_, by simp⟩
      simp [List.flatten_append, List.flatten_cons, List.append_assoc]
    · have := hnoadv _ hm
      simp [Scheduler.isAdv] at this

/-- Witness for amended C4 at the concrete one-token run. -/
theorem c4_cursor_order_witness :
    ((Scheduler.handler [] [Scheduler.tokOk]).events.Pairwise fun a b =>
        ¬(Scheduler.isEnq a = true ∧ Scheduler.isAdv b = true)) ∧
      Scheduler.SchedEvent.advanceCursor 2 none ∈
        (Scheduler.handler [] [Scheduler.tokOk]).events ∧
      ∃ pre post, (Scheduler.handler [] [Scheduler.tokOk]).events =
          pre ++ Scheduler.SchedEvent.readDescriptors 2 :: post ∧
        Scheduler.SchedEvent.advanceCursor 2 none ∈ post :=
  ⟨(c4_cursor_order [] [Scheduler.tokOk]).1, by decide,
    (c4_cursor_order [] [Scheduler.tokOk]).2 2 none (by decide)⟩

/-- Counterexample to C5 as stated: a single integration whose poll yields
1001 changed files makes the run enqueue 1001 items, beyond the 1000 cap. -/
theorem schedLoop_single_ok (db : List Scheduler.SchedDoc) (t : Scheduler.SchedToken)
    (evs : List Scheduler.SchedEvent) (docs : List Scheduler.UpsertDoc)
    (h : Scheduler.processToken db t = Except.ok (evs, docs)) :
    Scheduler.schedLoop db [] [t] =
      { events := evs ++ (chunks 10 docs).map Scheduler.SchedEvent.enqueueBatch,
        enqueued := docs, err := none } := by
  have hlim : ¬ Scheduler.UPSERT_LIMIT ≤ ([] : List Scheduler.UpsertDoc).length := by
    simp [Scheduler.UPSERT_LIMIT]
  simp only [Scheduler.schedLoop, if_neg hlim, h, Scheduler.finishRun, List.nil_append]

/-- Counterexample to C5 as stated: a single integration whose poll yields
1001 changed files makes the run enqueue 1001 items, beyond the 1000 cap. -/
theorem c5_counterexample :
    (Scheduler.handler [] [Scheduler.tokBig]).enqueued.length = 1001 ∧
      ¬ (Scheduler.handler [] [Scheduler.tokBig]).enqueued.length ≤
        Scheduler.UPSERT_LIMIT := by
  have hf : Scheduler.bigFiles.filter
      (fun f => !Scheduler.googleSkip [] "U1" f) = Scheduler.bigFiles :=
    List.filter_eq_self.mpr fun f _ => rfl
  have h1 : Scheduler.get_google_documents_to_upsert [] "T1" "U1" Scheduler.bigFiles =
      Scheduler.bigFiles.map (Scheduler.googleUpsertDoc "T1" "U1") := by
    rw [google_filter_map, hf]
  have hp : Scheduler.processToken [] Scheduler.tokBig = Except.ok
      ([Scheduler.SchedEvent.readDescriptors 1, Scheduler.SchedEvent.advanceCursor 1 none],
        Scheduler.get_google_documents_to_upsert [] "T1" "U1" Scheduler.bigFiles) := rfl
  have h2 : (Scheduler.handler [] [Scheduler.tokBig]).enqueued =
      Scheduler.get_google_documents_to_upsert [] "T1" "U1" Scheduler.bigFiles := by
    show (Scheduler.schedLoop [] [] [Scheduler.tokBig]).enqueued = _
    rw [schedLoop_single_ok [] Scheduler.tokBig _ _ hp]
  rw [h2, h1]
  constructor
  · simp [Scheduler.bigFiles]
  · simp [Scheduler.bigFiles, Scheduler.UPSERT_LIMIT]

/-- The accumulation loop never exceeds the cap by more than the largest
single-token batch. -/
theorem schedLoop_enqueued_le (db : List Scheduler.SchedDoc) :
    ∀ (tokens : List Scheduler.SchedToken) (acc : List Scheduler.UpsertDoc),
      (Scheduler.schedLoop db acc tokens).enqueued.length ≤
        max acc.length
          (Scheduler.UPSERT_LIMIT - 1 + Scheduler.maxTokenBatch db tokens) := by
  intro tokens
  induction tokens with
  | nil =>
    intro acc
    exact le_max_left _ _
  | cons t rest ih =>
    intro acc
    by_cases hlim : Scheduler.UPSERT_LIMIT ≤ acc.length
    · simp only [Scheduler.schedLoop, if_pos hlim, Scheduler.finishRun]
      exact le_max_left _ _
    · cases hresp : Scheduler.processToken db t with
      | error e =>
        simp only [Scheduler.schedLoop, if_neg hlim, hresp]
        exact Nat.zero_le _
      | ok pr =>
        obtain ⟨evs, docs⟩ := pr
        simp only [Scheduler.schedLoop, if_neg hlim, hresp]
        have hih := ih (acc ++ docs)
        have hdocs : (Scheduler.tokenDocs db t).length = docs.length := by
          unfold Scheduler.tokenDocs
          rw [hresp]
        have hmaxB : Scheduler.maxTokenBatch db (t :: rest) =
            max (Scheduler.tokenDocs db t).length (Scheduler.maxTokenBatch db rest) :=
          rfl
        have hacc : acc.length < Scheduler.UPSERT_LIMIT := Nat.lt_of_not_le hlim
        refine le_trans (le_trans hih (max_le ?_ ?_)) (le_max_right _ _)
        · rw [List.length_append]
          have hb : docs.length ≤ Scheduler.maxTokenBatch db (t :: rest) := by
            rw [hmaxB, ← hdocs]
            exact le_max_left _ _
          have hl : (0 : Nat) < Scheduler.UPSERT_LIMIT := by norm_num [Scheduler.UPSERT_LIMIT]
          omega
        · have hb : Scheduler.maxTokenBatch db rest ≤
              Scheduler.maxTokenBatch db (t :: rest) := by
            rw [hmaxB]
            exact le_max_right _ _
          omega

/-- Amended C5: the number of items a scheduling run enqueues is bounded by
999 plus the largest batch any single integration contributes; the
per-integration break makes the cap soft, not a hard limit of 1000. -/
theorem c5_cap_bound (db : List Scheduler.SchedDoc)
    (tokens : List Scheduler.SchedToken) :
    (Scheduler.handler db tokens).enqueued.length ≤
      Scheduler.UPSERT_LIMIT - 1 + Scheduler.maxTokenBatch db tokens := by
  have h := schedLoop_enqueued_le db tokens []
  simpa [Scheduler.handler] using h

/-- Counterexample to C6 as stated: with two integrations, a Reader error
on the first aborts the whole run - the second is never read and nothing
is enqueued, instead of the error being caught and the rest processed. -/
theorem c6_counterexample :
    Scheduler.handler [] [Scheduler.tokErr, Scheduler.tokOk] =
      ⟨[], [], some "boom"⟩ ∧
    Scheduler.SchedEvent.readDescriptors Scheduler.tokOk.id ∉
      (Scheduler.handler [] [Scheduler.tokErr, Scheduler.tokOk]).events := by
  decide

/-- Amended C6: a Reader error while polling an integration below the cap
terminates the scheduling run with that error; no further events are
emitted and nothing at all is enqueued. -/
theorem c6_reader_error_aborts (db : List Scheduler.SchedDoc)
    (t : Scheduler.SchedToken) (rest : List Scheduler.SchedToken)
    (acc : List Scheduler.UpsertDoc) (e : String)
    (herr : t.response = Except.error e)
    (hlen : acc.length < Scheduler.UPSERT_LIMIT) :
    Scheduler.schedLoop db acc (t :: rest) = ⟨[], [], some e⟩ := by
  have hp : Scheduler.processToken db t = Except.error e := by
    unfold Scheduler.processToken
    rw [herr]
  simp [Scheduler.schedLoop, if_neg (not_le.mpr hlen), hp]

/-- Witness for amended C6 at the concrete two-token run. -/
theorem c6_reader_error_aborts_witness :
    Scheduler.tokErr.response = Except.error "boom" ∧
      (List.length ([] : List Scheduler.UpsertDoc) < Scheduler.UPSERT_LIMIT) ∧
      Scheduler.schedLoop [] [] [Scheduler.tokErr, Scheduler.tokOk] =
        ⟨[], [], some "boom"⟩ :=
  ⟨rfl, by decide, c6_reader_error_aborts [] Scheduler.tokErr [Scheduler.tokOk] []
    "boom" rfl (by decide)⟩

/-! Section: The DELETE command (spec-modelled) -/

/-- Claim C2: processing a delete command for a source whose ledger row
records k vectors removes exactly the k ids `source_id-0 ..
source_id-(k-1)` from the index, deletes the ledger row, and a subsequent
delete of the same source is a no-op. -/
theorem c2_delete_command (s : SpecModel.SpecState) (sid : String)
    (r : SpecModel.ContentStoreRow) (k : Nat)
    (hfind : s.rows.find? (fun q => q.source_id == sid) = some r)
    (hk : r.num_vectors = k)
    (hpresent : ∀ i, SpecModel.specVectorId sid i ∈ vecIds s.index ↔ i < k) :
    (∀ i, SpecModel.specVectorId sid i ∉
        vecIds (SpecModel.deleteCommand s sid).index) ∧
    (∀ v, (v ∈ vecIds s.index ∧ v ∉ vecIds (SpecModel.deleteCommand s sid).index) ↔
        ∃ i, i < k ∧ v = SpecModel.specVectorId sid i) ∧
    ((SpecModel.deleteCommand s sid).rows.find?
        (fun q => q.source_id == sid) = none) ∧
    SpecModel.deleteCommand (SpecModel.deleteCommand s sid) sid =
      SpecModel.deleteCommand s sid := by
  subst hk
  have hdel : SpecModel.deleteCommand s sid =
      { rows := s.rows.filter fun q => !(q.source_id == sid),
        index := deleteVectors s.index
          ((List.range r.num_vectors).map (SpecModel.specVectorId sid)) } := by
    unfold SpecModel.deleteCommand
    rw [hfind]
  have hrows2 : (SpecModel.deleteCommand s sid).rows.find?
      (fun q => q.source_id == sid) = none := by
    rw [hdel]
    apply List.find?_eq_none.mpr
    intro q hq
    have hf := (List.mem_filter.mp hq).2
    simp only [Bool.not_eq_true'] at hf
    simp [hf]
  refine ⟨?_, ?_, hrows2, ?_⟩
  · intro i hmem
    rw [hdel, mem_vecIds_deleteVectors] at hmem
    obtain ⟨hin, hnot⟩ := hmem
    rw [hpresent i] at hin
    exact hnot (List.mem_map_of_mem _ (List.mem_range.mpr hin))
  · intro v
    rw [hdel, mem_vecIds_deleteVectors]
    constructor
    · rintro ⟨hin, hnot⟩
      have h2 : v ∈ (List.range r.num_vectors).map (SpecModel.specVectorId sid) := by
        by_contra hc
        exact hnot ⟨hin, hc⟩
      rcases List.mem_map.mp h2 with ⟨i, hi, hieq⟩
      exact ⟨i, List.mem_range.mp hi, hieq.symm⟩
    · rintro ⟨i, hik, hid⟩
      subst hid
      refine ⟨(hpresent i).mpr hik, ?_⟩
      intro hc
      exact hc.2 (List.mem_map_of_mem _ (List.mem_range.mpr hik))
  · generalize hgen : SpecModel.deleteCommand s sid = s1
    rw [hgen] at hrows2
    unfold SpecModel.deleteCommand
    rw [hrows2]

/-- Witness for C2 at the concrete five-vector ledger row. -/
theorem c2_delete_command_witness :
    ((SpecModel.specState0.rows.find? (fun q => q.source_id == "doc-42") =
        some SpecModel.row0) ∧
      SpecModel.row0.num_vectors = 5 ∧
      ∀ i, SpecModel.specVectorId "doc-42" i ∈
        vecIds SpecModel.specState0.index ↔ i < 5) ∧
    ((∀ i, SpecModel.specVectorId "doc-42" i ∉
        vecIds (SpecModel.deleteCommand SpecModel.specState0 "doc-42").index) ∧
      (∀ v, (v ∈ vecIds SpecModel.specState0.index ∧
          v ∉ vecIds (SpecModel.deleteCommand SpecModel.specState0 "doc-42").index) ↔
        ∃ i, i < 5 ∧ v = SpecModel.specVectorId "doc-42" i) ∧
      ((SpecModel.deleteCommand SpecModel.specState0 "doc-42").rows.find?
        (fun q => q.source_id == "doc-42") = none) ∧
      SpecModel.deleteCommand
          (SpecModel.deleteCommand SpecModel.specState0 "doc-42") "doc-42" =
        SpecModel.deleteCommand SpecModel.specState0 "doc-42") := by
  have hpres : ∀ i, SpecModel.specVectorId "doc-42" i ∈
      vecIds SpecModel.specState0.index ↔ i < 5 := fun i =>
    mem_vecIds_idRange (SpecModel.specVectorId "doc-42")
      (fun a b hab => specVectorId_inj "doc-42" hab) 5 i
  exact ⟨⟨by decide, rfl, hpres⟩,
    c2_delete_command SpecModel.specState0 "doc-42" SpecModel.row0 5 (by decide)
      rfl hpres⟩

end Hashy
